import Mathlib

/-!
Verification of the rez memcached caching layer
(`src/rez/utils/memcached.py`): the `Client` wrapper around a remote
key-value store, its key qualification/hashing, get/set round trips and
soft/hard flush semantics.

Python strings are modelled as Lean `String`; byte strings as `List Nat`
(each element < 256); the remote memcached store as an association list
from physical key to stored payload, with `List.lookup` returning the most
recently stored binding (matching the overwrite semantics of the store's
`set`).
-/

namespace Rez.Memcached

/-! ### MD5 (hashlib.md5, used by `Client._key_hash`)

A direct embedding of the MD5 algorithm (RFC 1321) operating on byte
lists, with 32-bit words represented as `Nat` reduced mod 2^32. Only its
shape (a 16-byte digest rendered as 32 hex characters) matters for the
claims, but the algorithm is embedded in full. -/

/-- 2^32, the modulus for 32-bit arithmetic. -/
def M32 : Nat := 4294967296

/-- 32-bit addition. -/
def add32 (a b : Nat) : Nat := (a + b) % M32

/-- 32-bit bitwise complement (for x < 2^32). -/
def not32 (x : Nat) : Nat := Nat.xor x 4294967295

/-- 32-bit left rotation by `s` (0 ≤ s < 32). -/
def rotl32 (x s : Nat) : Nat :=
  Nat.lor ((x <<< s) % M32) ((x % M32) >>> (32 - s))

/-- Per-round left-rotation amounts of MD5. -/
def md5_s : List Nat :=
  [7, 12, 17, 22, 7, 12, 17, 22, 7, 12, 17, 22, 7, 12, 17, 22,
   5, 9, 14, 20, 5, 9, 14, 20, 5, 9, 14, 20, 5, 9, 14, 20,
   4, 11, 16, 23, 4, 11, 16, 23, 4, 11, 16, 23, 4, 11, 16, 23,
   6, 10, 15, 21, 6, 10, 15, 21, 6, 10, 15, 21, 6, 10, 15, 21]

/-- The 64 sine-derived constants of MD5. -/
def md5_K : List Nat :=
  [0xd76aa478, 0xe8c7b756, 0x242070db, 0xc1bdceee,
   0xf57c0faf, 0x4787c62a, 0xa8304613, 0xfd469501,
   0x698098d8, 0x8b44f7af, 0xffff5bb1, 0x895cd7be,
   0x6b901122, 0xfd987193, 0xa679438e, 0x49b40821,
   0xf61e2562, 0xc040b340, 0x265e5a51, 0xe9b6c7aa,
   0xd62f105d, 0x02441453, 0xd8a1e681, 0xe7d3fbc8,
   0x21e1cde6, 0xc33707d6, 0xf4d50d87, 0x455a14ed,
   0xa9e3e905, 0xfcefa3f8, 0x676f02d9, 0x8d2a4c8a,
   0xfffa3942, 0x8771f681, 0x6d9d6122, 0xfde5380c,
   0xa4beea44, 0x4bdecfa9, 0xf6bb4b60, 0xbebfbc70,
   0x289b7ec6, 0xeaa127fa, 0xd4ef3085, 0x04881d05,
   0xd9d4d039, 0xe6db99e5, 0x1fa27cf8, 0xc4ac5665,
   0xf4292244, 0x432aff97, 0xab9423a7, 0xfc93a039,
   0x655b59c3, 0x8f0ccc92, 0xffeff47d, 0x85845dd1,
   0x6fa87e4f, 0xfe2ce6e0, 0xa3014314, 0x4e0811a1,
   0xf7537e82, 0xbd3af235, 0x2ad7d2bb, 0xeb86d391]

/-- The four MD5 state words. -/
structure MD5State where
  a : Nat
  b : Nat
  c : Nat
  d : Nat
deriving Repr, DecidableEq

/-- The nonlinear mixing function of step `i` applied to `(b, c, d)`. -/
def md5_f (b c d i : Nat) : Nat :=
  if i < 16 then Nat.lor (Nat.land b c) (Nat.land (not32 b) d)
  else if i < 32 then Nat.lor (Nat.land d b) (Nat.land (not32 d) c)
  else if i < 48 then Nat.xor (Nat.xor b c) d
  else Nat.xor c (Nat.lor b (not32 d))

/-- The message-word index used at step `i`. -/
def md5_g (i : Nat) : Nat :=
  if i < 16 then i
  else if i < 32 then (5 * i + 1) % 16
  else if i < 48 then (3 * i + 5) % 16
  else (7 * i) % 16

/-- One of the 64 steps of an MD5 block computation; `m` is the block as
16 little-endian 32-bit words. -/
def md5_step (m : List Nat) (st : MD5State) (i : Nat) : MD5State :=
  let f := add32 (add32 (add32 (md5_f st.b st.c st.d i) st.a)
                        (md5_K.getD i 0))
                 (m.getD (md5_g i) 0)
  ⟨st.d, add32 st.b (rotl32 f (md5_s.getD i 0)), st.b, st.c⟩

/-- Process one 64-byte block (given as 16 words): run the 64 steps and
add the result to the incoming state. -/
def md5_block (st : MD5State) (m : List Nat) : MD5State :=
  let e := (List.range 64).foldl (md5_step m) st
  ⟨add32 st.a e.a, add32 st.b e.b, add32 st.c e.c, add32 st.d e.d⟩

/-- Assemble a little-endian 32-bit word from four bytes. -/
def le_word (b0 b1 b2 b3 : Nat) : Nat :=
  b0 + 256 * b1 + 65536 * b2 + 16777216 * b3

/-- Group a byte list into little-endian 32-bit words. -/
def bytes_to_words : List Nat → List Nat
  | b0 :: b1 :: b2 :: b3 :: rest => le_word b0 b1 b2 b3 :: bytes_to_words rest
  | _ => []

/-- MD5 padding: append 0x80, zero bytes up to 56 mod 64, then the
original length in bits as eight little-endian bytes. -/
def md5_pad (msg : List Nat) : List Nat :=
  let padzeros := (119 - msg.length % 64) % 64
  msg ++ 128 :: List.replicate padzeros 0
      ++ (List.range 8).map (fun i => ((8 * msg.length) >>> (8 * i)) % 256)

/-- Split a byte list into successive 64-byte chunks. -/
def chunks64 (l : List Nat) : List (List Nat) :=
  (List.range ((l.length + 63) / 64)).map (fun i => (l.drop (64 * i)).take 64)

/-- The MD5 initialisation vector. -/
def md5_init : MD5State := ⟨0x67452301, 0xefcdab89, 0x98badcfe, 0x10325476⟩

/-- Run MD5 over a byte message, producing the final four state words. -/
def md5_digest_words (msg : List Nat) : MD5State :=
  (chunks64 (md5_pad msg)).foldl
    (fun st ch => md5_block st (bytes_to_words ch)) md5_init

/-- Serialize a 32-bit word as four little-endian bytes. -/
def word_bytes (w : Nat) : List Nat :=
  [w % 256, (w >>> 8) % 256, (w >>> 16) % 256, (w >>> 24) % 256]

/-- The 16-byte MD5 digest of a byte message. -/
def md5_bytes (msg : List Nat) : List Nat :=
  let st := md5_digest_words msg
  word_bytes st.a ++ word_bytes st.b ++ word_bytes st.c ++ word_bytes st.d

/-- Lowercase hex character for a value below 16. -/
def hexChar (n : Nat) : Char :=
  if n < 10 then Char.ofNat (48 + n) else Char.ofNat (87 + n)

/-- Two-character lowercase hex rendering of a byte. -/
def byte_hex (b : Nat) : List Char := [hexChar (b / 16 % 16), hexChar (b % 16)]

/-- `md5(msg).hexdigest()`: the digest as 32 lowercase hex characters. -/
def hexdigest (msg : List Nat) : String :=
  String.mk ((md5_bytes msg).map byte_hex).flatten

/-- Bytes of a string (Python 2 `str` keys are byte strings; characters
are taken mod 256). -/
def strBytes (s : String) : List Nat := s.data.map (fun c => c.toNat % 256)

/-! ### Key hashing (`Client._key_hash`, `Client._debug_key_hash`) -/

/-- Modelled from the spec: `SERVER_MAX_KEY_LENGTH` is imported from
`rez.vendor.memcache.memcache`, which is not under `src/`; the spec calls
it "the store's maximum key length". Its value in the vendored
python-memcached client is 250. -/
def SERVER_MAX_KEY_LENGTH : Nat := 250

/-- `Client._key_hash`: `md5(key).hexdigest()`. -/
def key_hash (key : String) : String := hexdigest (strBytes key)

/-- Membership in the regex class `[0-9a-zA-Z]`. -/
def isAlnum (c : Char) : Bool :=
  (48 ≤ c.toNat && c.toNat ≤ 57) || (97 ≤ c.toNat && c.toNat ≤ 122)
    || (65 ≤ c.toNat && c.toNat ≤ 90)

/-- `re.sub("[^0-9a-zA-Z]+", '_', value)`: replace each maximal nonempty
run of characters outside `[0-9a-zA-Z]` by a single underscore. -/
def collapseRuns : List Char → List Char
  | [] => []
  | c :: rest =>
    if isAlnum c then c :: collapseRuns rest
    else '_' :: collapseRuns (rest.dropWhile (fun x => !isAlnum x))
termination_by l => l.length
decreasing_by
  · simp only [List.length_cons]; omega
  · have h := (List.dropWhile_suffix (fun x => !isAlnum x) (l := rest)).length_le
    simp only [List.length_cons]; omega

/-- `Client._debug_key_hash`: a 16-character digest prefix, a colon, the
qualified key, truncated to `SERVER_MAX_KEY_LENGTH`, runs of characters
outside `[0-9a-zA-Z]` collapsed to `_`. -/
def debug_key_hash (key : String) : String :=
  let h := String.mk ((key_hash key).data.take 16)
  let value := h ++ ":" ++ key
  let value := String.mk (value.data.take SERVER_MAX_KEY_LENGTH)
  String.mk (collapseRuns value.data)

/-! ### The `Client` wrapper

`__version__` (imported from the `rez` package root, not under `src/`) is
modelled as an explicit `version` argument threaded through the
operations; theorems quantify over it.

`Client.miss` (the distinguished `_Miss` sentinel, distinct from every
cached value including `None`) is modelled as the dedicated constructor
`GetResult.miss`; a cached value `v` — `None` included, since the value
type is a parameter — comes back as `GetResult.value v`. -/

/-- Result of `Client.get`: either a cached value or the miss sentinel. -/
inductive GetResult (α : Type u) where
  | value : α → GetResult α
  | miss : GetResult α
deriving Repr, DecidableEq

/-- Modelled from the spec: the remote key-value store
(`rez.vendor.memcache.memcache.Client`, not under `src/`), an off-the-shelf
client exposing get/set/delete/flush-all as atomic operations keyed by
physical key. Modelled as an association list; `List.lookup` returns the
most recently stored binding, matching the store's overwrite-on-set. -/
abbrev Store (α : Type u) : Type u := List (String × α)

/-- The mutable state of a `Client` (its servers and lazily-built
connection are irrelevant to the claims and omitted): the `debug` flag,
fixed at construction, and the generation tag `current`, initially `""`
and replaced by soft flushes. -/
structure Client where
  debug : Bool
  current : String
deriving Repr, DecidableEq

/-- `self.key_hasher`, selected at construction:
`self._debug_key_hash if debug else self._key_hash`. -/
def Client.key_hasher (c : Client) : String → String :=
  if c.debug then debug_key_hash else key_hash

/-- `Client._qualified_key`: `"%s:%s:%s" % (__version__, self.current, key)`. -/
def qualified_key (version current key : String) : String :=
  version ++ ":" ++ current ++ ":" ++ key

/-- `Client.set`: qualify and hash the key, store the pair
`(qualified_key, val)` at the hashed key. (`time` and `min_compress_len`
are passed through to the store and do not affect the model.) -/
def Client.set (version : String) (c : Client) (st : Store (String × α))
    (key : String) (val : α) : Store (String × α) :=
  let k := qualified_key version c.current key
  let hashed_key := c.key_hasher k
  (hashed_key, (k, val)) :: st

/-- `Client.get`: qualify and hash the key, fetch; a stored pair whose
embedded qualified key equals the one computed for this lookup is a hit,
anything else (nothing stored, or an embedded-key mismatch after a hash
collision) is `miss`. (The source also checks that the entry is a 2-tuple;
in the typed model every stored payload is such a pair.) -/
def Client.get (version : String) (c : Client) (st : Store (String × α))
    (key : String) : GetResult α :=
  let k := qualified_key version c.current key
  let hashed_key := c.key_hasher k
  match st.lookup hashed_key with
  | some (k_, result) => if k_ = k then GetResult.value result else GetResult.miss
  | none => GetResult.miss

/-- `Client.delete`: qualify and hash the key, remove that physical key
from the store. -/
def Client.delete (version : String) (c : Client) (st : Store (String × α))
    (key : String) : Store (String × α) :=
  let k := qualified_key version c.current key
  let hashed_key := c.key_hasher k
  st.filter (fun e => e.1 ≠ hashed_key)

/-- The generation tag installed by `Client.flush(hard=False)`: a fresh
`uuid4().hex` token `tag`, prefixed with `"flushed"` in debug mode. The
randomness of `uuid4` is modelled by taking `tag` as an argument. -/
def flushTag (c : Client) (tag : String) : String :=
  if c.debug then "flushed" ++ tag else tag

/-- `Client.flush`: hard flush issues `flush_all` against the store
(dropping every entry); soft flush only replaces the local generation tag
and sends nothing to the store. (`reset_stats` after a hard flush touches
only statistics, which are outside the model.) -/
def Client.flush (c : Client) (st : Store (String × α)) (hard : Bool)
    (tag : String) : Client × Store (String × α) :=
  if hard then (c, ([] : Store (String × α)))
  else ({ c with current := flushTag c tag }, st)

/-- The store produced by `set`ting each `(key, value)` pair of `kvs` in
order through client `c`, starting from the empty store. -/
def set_all (version : String) (c : Client) (kvs : List (String × α)) :
    Store (String × α) :=
  kvs.foldl (fun s p => Client.set version c s p.1 p.2) []

/-! ### Helper lemmas -/

theorem md5_bytes_length (msg : List Nat) : (md5_bytes msg).length = 16 := by
  simp [md5_bytes, word_bytes]

theorem byte_hex_length (b : Nat) : (byte_hex b).length = 2 := rfl

theorem flatten_map_byte_hex_length (l : List Nat) :
    ((l.map byte_hex).flatten).length = 2 * l.length := by
  induction l with
  | nil => simp
  | cons b rest ih =>
    simp only [List.map_cons, List.flatten_cons, List.length_append, ih,
      byte_hex_length, List.length_cons]
    omega

theorem hexdigest_length (msg : List Nat) : (hexdigest msg).length = 32 := by
  show ((md5_bytes msg).map byte_hex).flatten.length = 32
  rw [flatten_map_byte_hex_length, md5_bytes_length]

theorem key_hash_length (key : String) : (key_hash key).length = 32 :=
  hexdigest_length _

theorem collapseRuns_length_le (l : List Char) :
    (collapseRuns l).length ≤ l.length := by
  generalize hn : l.length = n
  induction n using Nat.strong_induction_on generalizing l with
  | _ n ih =>
    cases l with
    | nil => simp [collapseRuns]
    | cons c rest =>
      cases hA : isAlnum c with
      | true =>
        rw [collapseRuns, if_pos hA]
        subst hn
        have := ih rest.length (by simp) rest rfl
        simp only [List.length_cons]
        omega
      | false =>
        rw [collapseRuns, if_neg (by simp [hA])]
        subst hn
        have hd := (List.dropWhile_suffix
          (l := rest) (fun x => !isAlnum x)).length_le
        have := ih (rest.dropWhile (fun x => !isAlnum x)).length
          (by simp only [List.length_cons]; omega) _ rfl
        simp only [List.length_cons]
        omega

theorem debug_key_hash_length_le (key : String) :
    (debug_key_hash key).length ≤ SERVER_MAX_KEY_LENGTH := by
  show (collapseRuns (((String.mk ((key_hash key).data.take 16) ++ ":" ++
      key).data).take SERVER_MAX_KEY_LENGTH)).length ≤ SERVER_MAX_KEY_LENGTH
  calc (collapseRuns (((String.mk ((key_hash key).data.take 16) ++ ":" ++
          key).data).take SERVER_MAX_KEY_LENGTH)).length
      ≤ (((String.mk ((key_hash key).data.take 16) ++ ":" ++
          key).data).take SERVER_MAX_KEY_LENGTH).length :=
        collapseRuns_length_le _
    _ ≤ SERVER_MAX_KEY_LENGTH := List.length_take_le _ _

/-! ### Claim theorems -/

/-- C3: for every qualified key — keys far longer than the store's
maximum included — the physical key produced by the configured key hasher
has length at most `SERVER_MAX_KEY_LENGTH`, in non-debug mode (the full
32-character MD5 hex digest of the qualified key) and in debug mode (the
16-character digest prefix plus the qualified key, truncated to the
limit, non-alphanumeric runs collapsed to `_`) alike. -/
theorem C3_physical_key_length (c : Client) (key : String) :
    (Client.key_hasher c key).length ≤ SERVER_MAX_KEY_LENGTH := by
  unfold Client.key_hasher
  cases h : c.debug with
  | true => simpa using debug_key_hash_length_le key
  | false => simp [key_hash_length, SERVER_MAX_KEY_LENGTH]

/-- C1: under one client (same namespace version and generation tag, no
intervening flush), `get k` right after `set k v` returns exactly `v` for
every value `v` (the value type is a parameter, so `None`/empty values are
covered); and `get` returns the miss sentinel when nothing is stored at
the physical key, and likewise when the stored entry's embedded qualified
key differs from the one computed for this lookup — a hash collision is
silently a miss, never an error or a wrong value. -/
theorem C1_get_set_roundtrip {α : Type} (version : String) (c : Client)
    (st : Store (String × α)) (key : String) (v : α) :
    Client.get version c (Client.set version c st key v) key
      = GetResult.value v ∧
    (st.lookup (c.key_hasher (qualified_key version c.current key)) = none →
      Client.get version c st key = GetResult.miss) ∧
    (∀ (k2 : String) (r : α),
      st.lookup (c.key_hasher (qualified_key version c.current key))
          = some (k2, r) →
      k2 ≠ qualified_key version c.current key →
      Client.get version c st key = GetResult.miss) := by
  refine ⟨?_, ?_, ?_⟩
  · simp [Client.get, Client.set, List.lookup_cons]
  · intro h
    simp [Client.get, h]
  · intro k2 r hl hne
    simp [Client.get, hl, hne]

/-- Witness for C1: a round trip through an empty store returns the
stored value 5; a get against the empty store misses; a get against a
store holding an entry at the right physical key but with a foreign
embedded qualified key misses. -/
theorem C1_get_set_roundtrip_witness :
    Client.get "2.0" (Client.mk false "")
        (Client.set "2.0" (Client.mk false "")
          ([] : Store (String × Nat)) "pkg" 5) "pkg"
      = GetResult.value 5 ∧
    Client.get "2.0" (Client.mk false "") ([] : Store (String × Nat)) "pkg"
      = GetResult.miss ∧
    Client.get "2.0" (Client.mk false "")
        [((Client.mk false "").key_hasher (qualified_key "2.0" "" "pkg"),
          ("other", (7 : Nat)))] "pkg"
      = GetResult.miss := by
  refine ⟨(C1_get_set_roundtrip "2.0" (Client.mk false "") [] "pkg" 5).1,
    (C1_get_set_roundtrip "2.0" (Client.mk false "") [] "pkg" 5).2.1 rfl,
    (C1_get_set_roundtrip "2.0" (Client.mk false "")
      [((Client.mk false "").key_hasher (qualified_key "2.0" "" "pkg"),
        ("other", (7 : Nat)))] "pkg" 5).2.2 "other" 7 ?_ ?_⟩
  · simp [List.lookup_cons]
  · decide

/-! ### Soft flush: supporting lemmas for C2 -/

theorem lookup_mem_value {β : Type u} :
    ∀ (st : List (String × β)) (k : String) (v : β),
      st.lookup k = some v → ∃ k2, (k2, v) ∈ st := by
  intro st
  induction st with
  | nil => intro k v h; simp at h
  | cons e rest ih =>
    intro k v h
    obtain ⟨a, b⟩ := e
    rw [List.lookup_cons] at h
    cases hk : (k == a) with
    | true =>
      rw [hk] at h
      simp only [Option.some.injEq] at h
      exact ⟨a, by simp [h]⟩
    | false =>
      rw [hk] at h
      obtain ⟨k2, hm⟩ := ih k v h
      exact ⟨k2, List.mem_cons_of_mem _ hm⟩

/-- Two colon-free prefixes followed by a colon determine each other. -/
theorem colonfree_append_inj :
    ∀ (a b x y : List Char), ':' ∉ a → ':' ∉ b →
      a ++ ':' :: x = b ++ ':' :: y → a = b ∧ x = y := by
  intro a
  induction a with
  | nil =>
    intro b x y _ hb h
    cases b with
    | nil => simpa using h
    | cons d b2 =>
      simp only [List.nil_append, List.cons_append, List.cons.injEq] at h
      exact absurd (by rw [← h.1]; exact List.mem_cons_self _ _) hb
  | cons c a2 ih =>
    intro b x y ha hb h
    cases b with
    | nil =>
      simp only [List.cons_append, List.nil_append, List.cons.injEq] at h
      exact absurd (by rw [h.1]; exact List.mem_cons_self _ _) ha
    | cons d b2 =>
      simp only [List.cons_append, List.cons.injEq] at h
      obtain ⟨h1, h2⟩ := h
      have := ih b2 x y (fun hm => ha (List.mem_cons_of_mem _ hm))
        (fun hm => hb (List.mem_cons_of_mem _ hm)) h2
      exact ⟨by simp [h1, this.1], this.2⟩

/-- With colon-free generation tags, equal qualified keys force equal
tags and equal logical keys. -/
theorem qualified_key_tag_inj (version t1 t2 k1 k2 : String)
    (h1 : ':' ∉ t1.data) (h2 : ':' ∉ t2.data)
    (h : qualified_key version t1 k1 = qualified_key version t2 k2) :
    t1 = t2 ∧ k1 = k2 := by
  have hd := congrArg String.data h
  simp only [qualified_key, String.data_append, List.append_assoc] at hd
  have hd2 := List.append_cancel_left hd
  simp only [List.singleton_append, List.cons.injEq, true_and] at hd2
  have := colonfree_append_inj t1.data t2.data k1.data k2.data h1 h2 hd2
  exact ⟨String.ext this.1, String.ext this.2⟩

/-- Every entry of a store built by `set`s through client `c` embeds a
qualified key bearing `c`'s generation tag. -/
theorem foldl_set_entries {α : Type u} (version : String) (c : Client)
    (kvs : List (String × α)) :
    ∀ (init : Store (String × α)),
      (∀ e ∈ init, ∃ k0, e.2.1 = qualified_key version c.current k0) →
      ∀ e ∈ kvs.foldl (fun s p => Client.set version c s p.1 p.2) init,
        ∃ k0, e.2.1 = qualified_key version c.current k0 := by
  induction kvs with
  | nil => intro init hinit e he; exact hinit e he
  | cons p rest ih =>
    intro init hinit e he
    refine ih _ ?_ e he
    intro e2 he2
    simp only [Client.set] at he2
    rcases List.mem_cons.mp he2 with h | h
    · exact ⟨p.1, by rw [h]⟩
    · exact hinit e2 h

theorem set_all_entries {α : Type u} (version : String) (c : Client)
    (kvs : List (String × α)) :
    ∀ e ∈ set_all version c kvs,
      ∃ k0, e.2.1 = qualified_key version c.current k0 :=
  foldl_set_entries version c kvs [] (by simp)

/-- `get` misses whenever no stored entry embeds the qualified key
computed for this lookup. -/
theorem get_miss_of_no_embedded {α : Type u} (version : String) (c : Client)
    (st : Store (String × α)) (key : String)
    (h : ∀ e ∈ st, e.2.1 ≠ qualified_key version c.current key) :
    Client.get version c st key = GetResult.miss := by
  simp only [Client.get]
  split
  · rename_i k2 r heq
    obtain ⟨kq, hm⟩ := lookup_mem_value st _ _ heq
    rw [if_neg (h (kq, (k2, r)) hm)]
  · rfl

/-- C2: after a soft flush, `get` of every key set before the flush
(indeed of every key) returns the miss sentinel; the flush sends nothing
to the store — the stored entries physically remain — and a client that
still carries the old generation tag still retrieves exactly what it did
before the flush. -/
theorem C2_soft_flush {α : Type} (version tag : String) (c : Client)
    (kvs : List (String × α))
    (hne : flushTag c tag ≠ c.current)
    (hold : ':' ∉ c.current.data)
    (hnew : ':' ∉ (flushTag c tag).data) :
    (Client.flush c (set_all version c kvs) false tag).2
        = set_all version c kvs ∧
    (∀ key, Client.get version
        (Client.flush c (set_all version c kvs) false tag).1
        (Client.flush c (set_all version c kvs) false tag).2 key
      = GetResult.miss) ∧
    (∀ key, Client.get version c
        (Client.flush c (set_all version c kvs) false tag).2 key
      = Client.get version c (set_all version c kvs) key) := by
  have hflush : Client.flush c (set_all version c kvs) false tag
      = ({ c with current := flushTag c tag }, set_all version c kvs) := by
    simp [Client.flush]
  refine ⟨by rw [hflush], ?_, by rw [hflush]; intro key; rfl⟩
  intro key
  rw [hflush]
  refine get_miss_of_no_embedded version _ _ key ?_
  intro e he hcontra
  obtain ⟨k0, hk0⟩ := set_all_entries version c kvs e he
  rw [hk0] at hcontra
  have := qualified_key_tag_inj version c.current (flushTag c tag) k0 key
    hold hnew hcontra
  exact hne this.1.symm

/-- Witness for C2 at concrete inputs: a debug-off client with the empty
initial tag, one entry set, soft-flushed with fresh tag `"a"`. -/
theorem C2_soft_flush_witness :
    (Client.flush (Client.mk false "")
        (set_all "2.0" (Client.mk false "") [("pkg", (5 : Nat))]) false "a").2
      = set_all "2.0" (Client.mk false "") [("pkg", (5 : Nat))] ∧
    Client.get "2.0"
        (Client.flush (Client.mk false "")
          (set_all "2.0" (Client.mk false "") [("pkg", (5 : Nat))])
          false "a").1
        (Client.flush (Client.mk false "")
          (set_all "2.0" (Client.mk false "") [("pkg", (5 : Nat))])
          false "a").2 "pkg"
      = GetResult.miss ∧
    Client.get "2.0" (Client.mk false "")
        (Client.flush (Client.mk false "")
          (set_all "2.0" (Client.mk false "") [("pkg", (5 : Nat))])
          false "a").2 "pkg"
      = Client.get "2.0" (Client.mk false "")
          (set_all "2.0" (Client.mk false "") [("pkg", (5 : Nat))]) "pkg" := by
  have h := C2_soft_flush "2.0" "a" (Client.mk false "") [("pkg", (5 : Nat))]
    (by decide) (by decide) (by decide)
  exact ⟨h.1, h.2.1 "pkg", h.2.2 "pkg"⟩

end Rez.Memcached
